import Mathlib

/-!
# version_releaser: staging and installer-script generation

A shallow embedding of `src/version_releaser/version_releaser.go`.

Go strings are modelled as lists of code points (`Str`); on the ASCII text the
program handles (paths, patterns, header files, the script template) bytes and
code points coincide.  The parts of the Go standard library the program calls
(`strings`, `path/filepath`) are modelled next to the program, following the
library's own source.  What the operating system answers (directory walk,
`os.Stat`, `ioutil.ReadFile`) is an explicit environment `Env`; what the program
asks the operating system to do is an explicit list of operations `Op`.
Logging is not modelled, and neither are the runs that end in `log.Fatal`.  The
configuration and the ignore list are inputs: `loadConfig`, `loadIgnore` and
`generateSetupFile` lie outside the properties stated here.
-/

namespace VersionReleaser

/-- Go `string`, as a list of code points. -/
abbrev Str := List Char

/-! ## Go standard library: `strings` -/

/-- Go `strings.HasSuffix(s, suffix)`. -/
def HasSuffix (s suffix : Str) : Bool := suffix.isSuffixOf s

/-- Go `strings.Contains(s, substr)`: `substr` occurs somewhere in `s`. -/
def Contains : Str → Str → Bool
  | [], substr => substr.isEmpty
  | c :: s, substr => substr.isPrefixOf (c :: s) || Contains s substr

/-- The scanning loop of `strings.Replace(s, old, new, -1)` for a non-empty `old`:
matches are found left to right and do not overlap.  `skip` counts the characters of
the match just replaced that are still to be passed over. -/
def replaceGo (old new : Str) : Nat → Str → Str
  | _, [] => []
  | skip + 1, _ :: s => replaceGo old new skip s
  | 0, c :: s =>
    if old.isPrefixOf (c :: s) then new ++ replaceGo old new (old.length - 1) s
    else c :: replaceGo old new 0 s

/-- Go `strings.Replace(s, old, new, -1)`.  With an empty `old`, Go inserts `new`
before every code point and at the end. -/
def Replace (s old new : Str) : Str :=
  if old.isEmpty then new ++ s.flatMap (fun c => c :: new) else replaceGo old new 0 s

/-- Go `strings.Split(s, sep)` for the one-character separators the program uses
(`"\n"`, `"="`, `";"`). -/
def Split (s : Str) (sep : Char) : List Str :=
  match s with
  | [] => [[]]
  | c :: s =>
    if c = sep then [] :: Split s sep
    else
      match Split s sep with
      | [] => [[c]]
      | h :: t => (c :: h) :: t

/-- Go `strings.Trim(s, cutset)`: all leading and trailing code points contained in
`cutset` removed. -/
def Trim (s cutset : Str) : Str :=
  ((s.dropWhile (fun c => cutset.contains c)).reverse.dropWhile
    (fun c => cutset.contains c)).reverse

/-- Go `strings.Join(elems, sep)`. -/
def Join (elems : List Str) (sep : Str) : Str := sep.intercalate elems

/-! ## Go standard library: `path/filepath` -/

/-- Go `runtime.GOOS`, as far as `path/filepath` depends on it: `windows`, or any
platform whose separator is the slash (`linux`). -/
inductive GOOS where
  | linux
  | windows
  deriving DecidableEq

/-- Go `filepath.Separator` (`os.PathSeparator`). -/
def Separator (goos : GOOS) : Char :=
  match goos with
  | GOOS.windows => '\\'
  | GOOS.linux => '/'

/-- Go `filepath.ToSlash(path)`: every separator replaced by a slash. -/
def ToSlash (goos : GOOS) (path : Str) : Str :=
  if Separator goos = '/' then path
  else path.map (fun c => if c = Separator goos then '/' else c)

/-- The scan of `scanChunk` after the leading stars: the chunk runs up to the first
`*` outside a bracket class. -/
def scanBody (goos : GOOS) : Bool → Str → Str × Str
  | _, [] => ([], [])
  | inrange, c :: cs =>
    if c = '\\' then
      if goos ≠ GOOS.windows then
        match cs with
        | [] => ([c], [])
        | d :: ds => let r := scanBody goos inrange ds; (c :: d :: r.1, r.2)
      else let r := scanBody goos inrange cs; (c :: r.1, r.2)
    else if c = '[' then let r := scanBody goos true cs; (c :: r.1, r.2)
    else if c = ']' then let r := scanBody goos false cs; (c :: r.1, r.2)
    else if c = '*' then
      if !inrange then ([], c :: cs)
      else let r := scanBody goos inrange cs; (c :: r.1, r.2)
    else let r := scanBody goos inrange cs; (c :: r.1, r.2)

/-- Go `scanChunk(pattern)`: `(star, chunk, rest)`. -/
def scanChunk (goos : GOOS) (pattern : Str) : Bool × Str × Str :=
  let p := pattern.dropWhile (fun c => c = '*')
  let r := scanBody goos false p
  (pattern.head? = some '*', r.1, r.2)

/-- Go `getEsc(chunk)`: the possibly escaped character at the start of a class;
`none` is `ErrBadPattern`. -/
def getEsc (goos : GOOS) (chunk : Str) : Option (Char × Str) :=
  match chunk with
  | [] => none
  | c :: rest =>
    if c = '-' ∨ c = ']' then none
    else if c = '\\' ∧ goos ≠ GOOS.windows then
      match rest with
      | [] => none
      | r :: nchunk => if nchunk.isEmpty then none else some (r, nchunk)
    else if rest.isEmpty then none else some (c, rest)

/-- The range loop of a bracket class in `matchChunk`: `(match, chunk after the
closing bracket)`; `none` is `ErrBadPattern`. -/
def matchClass (goos : GOOS) (r : Char) : Nat → Nat → Bool → Str → Option (Bool × Str)
  | 0, _, _, _ => none
  | fuel + 1, nrange, m, chunk =>
    match chunk with
    | ']' :: rest =>
      if nrange > 0 then some (m, rest) else none
    | _ =>
      match getEsc goos chunk with
      | none => none
      | some (lo, '-' :: chunk2) =>
        match getEsc goos chunk2 with
        | none => none
        | some (hi, chunk3) =>
          matchClass goos r fuel (nrange + 1) (m || (decide (lo ≤ r) && decide (r ≤ hi))) chunk3
      | some (lo, chunk1) =>
        matchClass goos r fuel (nrange + 1) (m || (decide (lo ≤ r) && decide (r ≤ lo))) chunk1

/-- The loop of Go `matchChunk(chunk, s)` with its `failed` flag: `some (rest, ok)`,
or `none` for `ErrBadPattern`. -/
def matchChunkLoop (goos : GOOS) : Nat → Str → Str → Bool → Option (Str × Bool)
  | _, [], s, failed => if failed then some ([], false) else some (s, true)
  | 0, _ :: _, _, _ => none
  | fuel + 1, c :: chunk, s, failed0 =>
    let failed := failed0 || s.isEmpty
    if c = '[' then
      let r := if failed then Char.ofNat 0 else s.headD (Char.ofNat 0)
      let s1 := if failed then s else s.tail
      let negated := decide (chunk.head? = some '^')
      let chunk1 := if negated then chunk.tail else chunk
      match matchClass goos r (chunk1.length + 1) 0 false chunk1 with
      | none => none
      | some (m, chunk2) => matchChunkLoop goos fuel chunk2 s1 (failed || (m == negated))
    else if c = '?' then
      if failed then matchChunkLoop goos fuel chunk s true
      else matchChunkLoop goos fuel chunk s.tail (decide (s.head? = some (Separator goos)))
    else if c = '\\' ∧ goos ≠ GOOS.windows then
      match chunk with
      | [] => none
      | d :: chunk1 =>
        if failed then matchChunkLoop goos fuel chunk1 s true
        else matchChunkLoop goos fuel chunk1 s.tail (decide (s.head? ≠ some d))
    else
      if failed then matchChunkLoop goos fuel chunk s true
      else matchChunkLoop goos fuel chunk s.tail (decide (s.head? ≠ some c))

/-- Go `matchChunk(chunk, s)`. -/
def matchChunk (goos : GOOS) (chunk s : Str) : Option (Str × Bool) :=
  matchChunkLoop goos chunk.length chunk s false

/-- The inner loop of `Match` run for a chunk that follows a star: the chunk is tried
after skipping `i + 1` characters, none of them a separator.  `some t` continues the
pattern loop with the rest `t` of the name; `none` makes `Match` return false. -/
def starLoop (goos : GOOS) (chunk : Str) (last : Bool) : Str → Option Str
  | [] => none
  | c :: name =>
    if c = Separator goos then none
    else
      match matchChunk goos chunk name with
      | none => none
      | some (t, ok) =>
        if ok then
          if last && !t.isEmpty then starLoop goos chunk last name else some t
        else starLoop goos chunk last name

/-- The pattern loop of Go `filepath.Match`, one chunk for each unit of fuel. -/
def matchLoop (goos : GOOS) : Nat → Str → Str → Bool
  | _, [], name => name.isEmpty
  | 0, _ :: _, _ => false
  | fuel + 1, c :: p, name =>
    let sc := scanChunk goos (c :: p)
    let star := sc.1
    let chunk := sc.2.1
    let pattern := sc.2.2
    if star && chunk.isEmpty then !name.contains (Separator goos)
    else
      match matchChunk goos chunk name with
      | none => false
      | some (t, ok) =>
        if ok && (t.isEmpty || !pattern.isEmpty) then matchLoop goos fuel pattern t
        else if star then
          match starLoop goos chunk pattern.isEmpty name with
          | some t1 => matchLoop goos fuel pattern t1
          | none => false
        else false

/-- Go `filepath.Match(pattern, name)`, its first result: whether `name` matches the
shell pattern.  The result is false whenever Go also returns `ErrBadPattern`; the
error itself is not kept, as the program discards it. -/
def Match (goos : GOOS) (pattern name : Str) : Bool :=
  matchLoop goos pattern.length pattern name

/-! ## Ignore list -/

/-- The process-wide `ignores` list is passed explicitly. -/
def needIgnore (goos : GOOS) (ignores : List Str) (path : Str) : Bool :=
  let path := ToSlash goos path
  let rec loop : List Str → Bool
    | [] => false
    | i :: rest =>
      if HasSuffix path i then true
      else if Match goos i path then true
      else loop rest
  loop ignores

/-! ## The program -/

/-- One entry of `extern_path`. -/
structure ExternPath where
  Source : Str
  Target : Str
  Override : Bool

/-- One application of the configuration; `WorkPath` is set by `loadConfig`. -/
structure App where
  Id : Str
  Name : Str
  ExeName : Str
  BuildPath : Str
  SetupTarget : Str
  VcRedist : Str
  Externs : List ExternPath
  WorkPath : Str

/-- The process-wide `config`. -/
structure Config where
  Version : Str
  Compiler : Str
  Output : Str
  Publisher : Str
  Url : Str
  Apps : List App

/-- The platform a run executes on. -/
structure Platform where
  goos : GOOS
  /-- Go `filepath.Join(a, b)` on that platform, taken as given. -/
  Join : Str → Str → Str

/-- What the operating system answers to the calls of one run. -/
structure Env where
  /-- The entries `filepath.Walk(root, fn)` hands to `fn`, in order, each with the
  answer of `os.Stat(path).IsDir()`. -/
  walk : Str → List (Str × Bool)
  /-- Whether `os.Stat(path)` finds an entry. -/
  stat : Str → Bool
  /-- The result of `ioutil.ReadFile(path)`: `none` when it returns an error. -/
  readFile : Str → Option Str

/-- The calls by which the program acts on the file system, in the order issued.
`copyFile` is the program's own helper, kept as one operation. -/
inductive Op where
  | removeAll (path : Str)
  | mkdirAll (path : Str)
  | copyFile (src dst : Str)
  | readFile (path : Str)
  | writeFile (path data : Str)
  deriving DecidableEq

/-- The template of the installer script. -/
def innoProfileTemplate : Str :=
  ("\n" ++
   "; Script generated by the Inno Setup Script Wizard.\n" ++
   "; SEE THE DOCUMENTATION FOR DETAILS ON CREATING INNO SETUP SCRIPT FILES!\n" ++
   "\n" ++
   "$DEFINES$\n" ++
   "\n" ++
   "[Setup]\n" ++
   "; NOTE: The value of AppId uniquely identifies this application.\n" ++
   "; Do not use the same AppId value in installers for other applications.\n" ++
   "; (To generate a new GUID, click Tools | Generate GUID inside the IDE.)\n" ++
   "AppId=$APPID$\n" ++
   "AppName=\x7b#AppName\x7d\n" ++
   "AppVersion=\x7b#AppVersion\x7d\n" ++
   ";AppVerName=\x7b#AppName\x7d \x7b#AppVersion\x7d\n" ++
   "AppPublisher=\x7b#AppPublisher\x7d\n" ++
   "AppPublisherURL=\x7b#AppURL\x7d\n" ++
   "AppSupportURL=\x7b#AppURL\x7d\n" ++
   "AppUpdatesURL=\x7b#AppURL\x7d\n" ++
   "DefaultDirName=$SETUP_TARGET$\n" ++
   "DefaultGroupName=Atom\n" ++
   "OutputBaseFilename=\x7b#AppName\x7d_\x7b#AppVersion\x7d\n" ++
   "Compression=lzma\n" ++
   "SolidCompression=yes\n" ++
   "PrivilegesRequired=admin\n" ++
   "\n" ++
   "[Languages]\n" ++
   "Name: \"english\"; MessagesFile: \"compiler:Default.isl\"\n" ++
   "\n" ++
   "[Tasks]\n" ++
   "Name: \"desktopicon\"; Description: \"\x7bcm:CreateDesktopIcon\x7d\"; GroupDescription: \"\x7bcm:AdditionalIcons\x7d\"\n" ++
   "\n" ++
   "[Files]\n" ++
   "; Program Files\n" ++
   "$PROGRAM_FILES$\n" ++
   "\n" ++
   "; Extern Files\n" ++
   "$EXTERN_FILES$\n" ++
   "\n" ++
   "; NOTE: Don't use \"Flags: ignoreversion\" on any shared system files\n" ++
   "\n" ++
   "; can not replace \\ to /\n" ++
   "[Icons]\n" ++
   "Name: \"\x7bgroup\x7d\\\x7b#AppName\x7d\"; Filename: \"\x7bapp\x7d\\\x7b#AppExeName\x7d\"\n" ++
   "Name: \"\x7bcommondesktop\x7d\\\x7b#AppName\x7d\"; Filename: \"\x7bapp\x7d\\\x7b#AppExeName\x7d\"; Tasks: desktopicon\n" ++
   "\n" ++
   "[Run]\n" ++
   "Filename: \"\x7bapp\x7d\\\x7b#AppExeName\x7d\"; Description: \"\x7bcm:LaunchProgram,\x7b#StringChange(AppName, '&', '&&')\x7d\x7d\"; Flags: nowait postinstall skipifsilent\n" ++
   "$RUN$\n" ++
   "\n" ++
   "; copy a vcredist_x64.exe to install path first\n" ++
   "[Code]\n" ++
   "$CODE$\n").toList

/-- The five variables `major, minor, patch, build, ref` of `createVersionConfig`. -/
structure VersionFields where
  major : Str
  minor : Str
  patch : Str
  build : Str
  ref : Str

/-- The text `createVersionConfig` takes from a line: what stands after the first
`=` (up to the next one), cut at the first `;`, with spaces trimmed. -/
def lineToken (l : Str) : Str :=
  let token := (Split l '=').getD 1 []
  let token := (Split token ';').headD []
  Trim token [' ']

/-- One iteration of the line loop of `createVersionConfig`. -/
def scanLine (v : VersionFields) (l : Str) : VersionFields :=
  if !Contains l "=".toList || !Contains l ";".toList then v
  else
    let token := lineToken l
    if Contains l "major".toList then { v with major := token }
    else if Contains l "minor".toList then { v with minor := token }
    else if Contains l "patch".toList then { v with patch := token }
    else if Contains l "build".toList then { v with build := Replace token ['"'] [] }
    else if Contains l "ref".toList then { v with ref := Replace token ['"'] [] }
    else v

/-- The format `"%s.%s.%s.%s.%s"` applied to the five fields. -/
def formatVersion (v : VersionFields) : Str :=
  v.major ++ ".".toList ++ v.minor ++ ".".toList ++ v.patch ++ ".".toList ++ v.build ++
    ".".toList ++ v.ref

/-- The function `createVersionConfig(app)`: the process-wide `config` is passed in
and returned, next to the operations issued. -/
def createVersionConfig (pf : Platform) (env : Env) (config : Config) (app : App) :
    Config × List Op :=
  let version := config.Version
  if HasSuffix version ".h".toList then
    match env.readFile version with
    | none => (config, [Op.readFile version])
    | some txt =>
      let lines := Split txt '\n'
      let v := lines.foldl scanLine ⟨[], [], [], [], []⟩
      ({ config with Version := formatVersion v }, [Op.readFile version])
  else
    (config, [Op.writeFile (pf.Join app.WorkPath "version".toList) version])

/-- The relative path the walk function of `copyNewFiles` derives for `path`. -/
def relativePath (goos : GOOS) (app : App) (path : Str) : Str :=
  Replace (ToSlash goos path) (ToSlash goos app.BuildPath) []

/-- The walk function of `copyNewFiles`, applied to one visited entry. -/
def walkFn (pf : Platform) (ignores : List Str) (app : App) (entry : Str × Bool) : List Op :=
  if entry.2 then []
  else if needIgnore pf.goos ignores entry.1 then []
  else
    let dest := pf.Join app.WorkPath (relativePath pf.goos app entry.1)
    [Op.copyFile entry.1 dest]

/-- The function `copyNewFiles(app)`.  Go passes `app` by value: the second component
is the callee's own copy of `app` when the function returns, which the caller never
sees. -/
def copyNewFiles (pf : Platform) (env : Env) (ignores : List Str) (app : App) :
    List Op × App :=
  let ops := [Op.removeAll app.WorkPath, Op.mkdirAll app.WorkPath] ++
    (env.walk app.BuildPath).flatMap (walkFn pf ignores app)
  if app.VcRedist.length > 0 then
    let vc := "vcredist_x64.exe".toList
    if env.stat vc then (ops ++ [Op.copyFile vc (app.WorkPath ++ "/".toList ++ vc)], app)
    else (ops, { app with VcRedist := [] })
  else (ops, app)

/-- The `defines` list of `generateInnoProfile`. -/
def defines (config : Config) (app : App) : List Str :=
  [ "#define AppName \"".toList ++ app.Name ++ "\"".toList,
    "#define AppVersion \"".toList ++ config.Version ++ "\"".toList,
    "#define AppPublisher \"".toList ++ config.Publisher ++ "\"".toList,
    "#define AppURL \"".toList ++ config.Url ++ "\"".toList,
    "#define AppExeName \"".toList ++ app.ExeName ++ "\"".toList,
    "#define AppSourceDir \"".toList ++ app.WorkPath ++ "\"".toList ]

/-- The `programs` list of `generateInnoProfile`. -/
def programs (app : App) : List Str :=
  if app.WorkPath ≠ [] then
    [ ("Source: \"\x7b#AppSourceDir\x7d/*\"; Excludes: \"\\config\"; DestDir: \"\x7bapp\x7d/\"; Flags: ").toList
        ++ "ignoreversion recursesubdirs createallsubdirs".toList ]
  else []

/-- The `flags` of one extern entry. -/
def externFlags (e : ExternPath) : Str :=
  let flags := "ignoreversion recursesubdirs createallsubdirs".toList
  if !e.Override then flags ++ " onlyifdoesntexist uninsneveruninstall".toList else flags

/-- The `externs` list of `generateInnoProfile`, built by appending one directive for
each entry of `app.Externs`. -/
def externs (app : App) : List Str :=
  app.Externs.foldl (fun acc e =>
    acc ++ [ "Source: \"".toList ++ e.Source ++ "\"; DestDir: \"".toList ++ e.Target
              ++ "\"; Flags: ".toList ++ externFlags e ]) []

/-- The `run` directive of the runtime block. -/
def runDirective : Str :=
  ("Filename: \"\x7bapp\x7d/vcredist_x64.exe\"; Parameters:/q;WorkingDir:\x7btmp\x7d;Flags:skipifdoesntexist;StatusMsg:\"Installing Runtime...\";Check:NeedInstallVCRuntime").toList

/-- The `code` text of the runtime block, before its placeholder is replaced. -/
def codeBlock : Str :=
  ("\n" ++
   "var NeedVcRuntime: Boolean;\n" ++
   " \n" ++
   "function NeedInstallVCRuntime(): Boolean;\n" ++
   "begin\n" ++
   "  Result := NeedVcRuntime;\n" ++
   "end;\n" ++
   " \n" ++
   "function InitializeSetup(): Boolean;\n" ++
   "var version: Cardinal;\n" ++
   "begin\n" ++
   "  if RegQueryDWordValue(HKLM, 'SOFTWARE\\Microsoft\\Windows\\CurrentVersion\\Uninstall\\$(VCREGKEY)$', 'Version', version) = false then begin\n" ++
   "    NeedVcRuntime := true;\n" ++
   "  end;\n" ++
   "  Result := true;\n" ++
   "end;\n").toList

/-- The `profile` text after the five substitutions every script gets (up to
`$EXTERN_FILES$`). -/
def profileBase (config : Config) (app : App) : Str :=
  let profile := innoProfileTemplate
  let profile := Replace profile "$DEFINES$".toList (Join (defines config app) "\n".toList)
  let profile := Replace profile "$APPID$".toList app.Id
  let profile := Replace profile "$SETUP_TARGET$".toList app.SetupTarget
  let profile := Replace profile "$PROGRAM_FILES$".toList (Join (programs app) "\n".toList)
  Replace profile "$EXTERN_FILES$".toList (Join (externs app) "\n".toList)

/-- The `code` text after `strings.Replace(code, "$VCREGKEY$", app.VcRedist, -1)`. -/
def vcCode (app : App) : Str := Replace codeBlock "$VCREGKEY$".toList app.VcRedist

/-- The text of the script `generateInnoProfile` writes. -/
def profile (config : Config) (app : App) : Str :=
  let profile := profileBase config app
  if app.VcRedist.length > 0 then
    let profile := Replace profile "$RUN$".toList runDirective
    Replace profile "$CODE$".toList (vcCode app)
  else
    let profile := Replace profile "$RUN$".toList []
    Replace profile "$CODE$".toList []

/-- The function `generateInnoProfile(app)`: the path of the script and the write that
creates it. -/
def generateInnoProfile (pf : Platform) (config : Config) (app : App) : Str × List Op :=
  let iss := pf.Join config.Output (app.Name ++ "_".toList ++ config.Version ++ ".iss".toList)
  let iss := ToSlash pf.goos iss
  (iss, [Op.writeFile iss (profile config app)])

/-- The result of staging one application: the `config` afterwards, the path `iss` of
the script, the text written to it, and the operations issued. -/
structure Staged where
  config : Config
  iss : Str
  script : Str
  ops : List Op

/-- The body of the loop over `config.Apps` in `main`: `copyNewFiles(app)`,
`createVersionConfig(app)`, `generateInnoProfile(app)`, each with the loop variable
`app`. -/
def stageApp (pf : Platform) (env : Env) (ignores : List Str) (config : Config) (app : App) :
    Staged :=
  let r1 := copyNewFiles pf env ignores app
  let r2 := createVersionConfig pf env config app
  let r3 := generateInnoProfile pf r2.1 app
  { config := r2.1, iss := r3.1, script := profile r2.1 app, ops := r1.1 ++ r2.2 ++ r3.2 }

/-- The loop over `config.Apps` in `main`: the final `config`, the script paths
collected in `iss`, and the operations issued. -/
def mainLoop (pf : Platform) (env : Env) (ignores : List Str) :
    Config → List App → Config × List Str × List Op
  | config, [] => (config, [], [])
  | config, app :: apps =>
    let s := stageApp pf env ignores config app
    let r := mainLoop pf env ignores s.config apps
    (r.1, s.iss :: r.2.1, s.ops ++ r.2.2)

/-! ## Notions the statements use -/

/-- The five keys of a version-definition file. -/
inductive Key where
  | major | minor | patch | build | ref
  deriving DecidableEq

/-- The key a line assigns, if any: the line holds `=` and `;`, and the key is the
first of `major`, `minor`, `patch`, `build`, `ref` whose name occurs in the line. -/
def keyOf (l : Str) : Option Key :=
  if Contains l "=".toList && Contains l ";".toList then
    if Contains l "major".toList then some Key.major
    else if Contains l "minor".toList then some Key.minor
    else if Contains l "patch".toList then some Key.patch
    else if Contains l "build".toList then some Key.build
    else if Contains l "ref".toList then some Key.ref
    else none
  else none

/-- The value a line gives to the key it assigns: for `build` and `ref` the double
quotes are removed. -/
def valueOf (k : Key) (l : Str) : Str :=
  match k with
  | Key.build => Replace (lineToken l) ['"'] []
  | Key.ref => Replace (lineToken l) ['"'] []
  | _ => lineToken l

/-- The component of the version for key `k`: the value of the last line that assigns
`k`, and the empty string when no line does. -/
def component (lines : List Str) (k : Key) : Str :=
  match (lines.filter (fun l => keyOf l = some k)).getLast? with
  | some l => valueOf k l
  | none => []

/-- The variable of `createVersionConfig` that belongs to key `k`. -/
def fieldOf (k : Key) (v : VersionFields) : Str :=
  match k with
  | Key.major => v.major
  | Key.minor => v.minor
  | Key.patch => v.patch
  | Key.build => v.build
  | Key.ref => v.ref

/-- The placeholders `generateInnoProfile` replaces after `$DEFINES$`. -/
def Placeholders : List Str :=
  ["$APPID$".toList, "$SETUP_TARGET$".toList, "$PROGRAM_FILES$".toList,
    "$EXTERN_FILES$".toList, "$RUN$".toList, "$CODE$".toList]

/-- The text `f` holds none of the placeholders replaced after `$DEFINES$`. -/
def NoPlaceholder (f : Str) : Prop := ∀ tok ∈ Placeholders, ¬ tok <:+: f

/-- The script holds `line` as a line of its own, between two line breaks. -/
def hasLine (script line : Str) : Prop := '\n' :: (line ++ ['\n']) <:+: script

/-- The `profile` text right after the `$DEFINES$` substitution. -/
def profileDefines (config : Config) (app : App) : Str :=
  Replace innoProfileTemplate "$DEFINES$".toList (Join (defines config app) "\n".toList)

/-- A Windows platform for the examples; its join agrees with `filepath.Join` on the
clean paths the examples use. -/
def exPlatform : Platform := ⟨GOOS.windows, fun a b => a ++ '\\' :: b⟩

/-- An application with a runtime key and two extern entries. -/
def exApp : App :=
  { Id := "APP-1".toList, Name := "Atom".toList, ExeName := "atom.exe".toList,
    BuildPath := "C:/build/atom".toList, SetupTarget := "C:/Atom".toList,
    VcRedist := "VC-KEY".toList,
    Externs := [⟨"C:/ext/data".toList, "\x7bapp\x7d/data".toList, false⟩,
      ⟨"C:/ext/doc".toList, "\x7bapp\x7d/doc".toList, true⟩],
    WorkPath := "C:/out/Atom".toList }

/-- A configuration with a literal version. -/
def exConfig : Config :=
  { Version := "2.0.0".toList, Compiler := "ISCC.exe".toList, Output := "C:/out".toList,
    Publisher := "Atom Ltd".toList, Url := "http://atom.example".toList, Apps := [exApp] }

/-- A configuration whose version names a header file. -/
def exConfigHeader : Config := { exConfig with Version := "version.h".toList }

/-- A configuration whose publisher is the text of a placeholder. -/
def exConfigPlaceholder : Config := { exConfig with Publisher := "$APPID$".toList }

/-- A configuration whose version is the text of a placeholder. -/
def exConfigVersion : Config := { exConfig with Version := "$APPID$".toList }

/-- The text of a version-definition file. -/
def exHeader : Str :=
  "major = 1;\nminor = 2;\npatch = 3;\nbuild = \"4\";\nref = \"abcd\";".toList

/-- An environment without `vcredist_x64.exe`, whose build tree holds `app.exe` and
`app.log`, and in which every read returns `exHeader`. -/
def exEnv : Env :=
  { walk := fun root => [(root, true), (root ++ "\\app.exe".toList, false),
      (root ++ "\\app.log".toList, false)],
    stat := fun _ => false,
    readFile := fun _ => some exHeader }

/-- An application built under `/a`, on a platform whose separator is the slash. -/
def nestedApp : App :=
  { exApp with BuildPath := "/a".toList, WorkPath := "/w".toList }

/-! ## Lemmas on the library functions -/

theorem HasSuffix_iff (s p : Str) : HasSuffix s p = true ↔ p <:+ s := by
  simp [HasSuffix]

theorem Contains_iff (s sub : Str) : Contains s sub = true ↔ sub <:+: s := by
  induction s with
  | nil => simp [Contains]
  | cons c s ih =>
    simp only [Contains, Bool.or_eq_true, List.isPrefixOf_iff_prefix, ih]
    exact List.infix_cons_iff.symm

theorem replaceGo_skip (old new : Str) : ∀ (s : Str) (k : Nat),
    replaceGo old new k s = replaceGo old new 0 (s.drop k) := by
  intro s
  induction s with
  | nil => intro k; cases k <;> simp [replaceGo]
  | cons c s ih =>
    intro k
    cases k with
    | zero => simp
    | succ k => simp only [replaceGo, List.drop_succ_cons]; exact ih k

theorem replaceGo_at_match (old new post : Str) (h : old ≠ []) :
    replaceGo old new 0 (old ++ post) = new ++ replaceGo old new 0 post := by
  cases old with
  | nil => exact absurd rfl h
  | cons o os =>
    have hp : (o :: os).isPrefixOf (o :: (os ++ post)) = true := by
      rw [List.isPrefixOf_iff_prefix]; exact ⟨post, rfl⟩
    simp only [List.cons_append, replaceGo, hp, if_true]
    rw [replaceGo_skip]
    simp

theorem replaceGo_no_match (old new : Str) (c : Char) (s : Str)
    (h : ¬ old <+: c :: s) :
    replaceGo old new 0 (c :: s) = c :: replaceGo old new 0 s := by
  have hp : old.isPrefixOf (c :: s) = false := by
    rw [← Bool.not_eq_true, List.isPrefixOf_iff_prefix]; exact h
  simp [replaceGo, hp]

/-- Without an occurrence of `old` nothing is replaced. -/
theorem replaceGo_no_occurrence (old new : Str) : ∀ s : Str, ¬ old <:+: s →
    replaceGo old new 0 s = s := by
  intro s
  induction s with
  | nil => intro _; simp [replaceGo]
  | cons c s ih =>
    intro h
    rw [replaceGo_no_match _ _ _ _ (fun hp => h hp.isInfix)]
    rw [ih (fun hi => h (List.infix_cons hi))]

/-- A block that ends in a character foreign to `old` and holds no occurrence of `old`
is matched at none of its positions, whatever follows it. -/
theorem not_prefix_in_block (old init : Str) (b1 : Char) (h1 : b1 ∉ old)
    (h2 : ¬ old <:+: init ++ [b1]) (t post : Str) (ht : t ≠ []) (hs : t <:+ init ++ [b1]) :
    ¬ old <+: t ++ post := by
  intro hp
  rcases Nat.le_total old.length t.length with hl | hl
  · have : old <+: t := List.prefix_of_prefix_length_le hp (List.prefix_append t post) hl
    exact h2 (List.infix_iff_prefix_suffix.mpr ⟨t, this, hs⟩)
  · have hpre : t <+: old := List.prefix_of_prefix_length_le (List.prefix_append t post) hp hl
    rcases List.suffix_concat_iff.mp (by simpa using hs) with h | ⟨t', rfl, _⟩
    · exact ht h
    · exact h1 (hpre.subset (by simp))

theorem replaceGo_block (old new post : Str) : ∀ b : Str,
    (∀ t, t ≠ [] → t <:+ b → ¬ old <+: t ++ post) →
    replaceGo old new 0 (b ++ post) = b ++ replaceGo old new 0 post := by
  intro b
  induction b with
  | nil => intro _; rfl
  | cons c b ih =>
    intro h
    have h0 : ¬ old <+: c :: (b ++ post) := by
      simpa using h (c :: b) (by simp) List.suffix_rfl
    simp only [List.cons_append]
    rw [replaceGo_no_match _ _ _ _ h0,
      ih (fun t ht hs => h t ht (hs.trans (List.suffix_cons c b)))]

/-- Replacement passes over a block whose first and last characters are foreign to
`old` and which holds no occurrence of `old`: the block is kept, and the scan resumes
right behind it. -/
theorem replaceGo_keeps_block (old new blk : Str) (b0 b1 : Char) (tl init post : Str)
    (hb0 : blk = b0 :: tl) (hb1 : blk = init ++ [b1]) (h0 : b0 ∉ old) (h1 : b1 ∉ old)
    (h2 : ¬ old <:+: blk) :
    ∀ (pre : Str) (k : Nat), k ≤ pre.length →
      ∃ pre', replaceGo old new k (pre ++ (blk ++ post)) =
        pre' ++ (blk ++ replaceGo old new 0 post) := by
  intro pre
  induction pre with
  | nil =>
    intro k hk
    have hk0 : k = 0 := by simpa using hk
    subst hk0
    refine ⟨[], ?_⟩
    rw [List.nil_append, List.nil_append]
    refine replaceGo_block old new post _ (fun t ht hs => ?_)
    rw [hb1] at hs h2
    exact not_prefix_in_block old init b1 h1 h2 t post ht hs
  | cons c pre ih =>
    intro k hk
    cases k with
    | succ k =>
      obtain ⟨pre', hpre'⟩ := ih k (by simpa using hk)
      exact ⟨pre', by simpa [replaceGo] using hpre'⟩
    | zero =>
      by_cases hp : old <+: c :: (pre ++ (blk ++ post))
      · have hlen : old.length - 1 ≤ pre.length := by
          by_contra hcon
          have hl : ((c :: pre) ++ [b0]).length ≤ old.length := by
            simp only [List.length_append, List.length_cons, List.length_nil]; omega
          have hx : (c :: pre) ++ [b0] <+: c :: (pre ++ (blk ++ post)) :=
            ⟨tl ++ post, by simp [hb0]⟩
          have := List.prefix_of_prefix_length_le hx hp hl
          exact h0 (this.subset (by simp))
        obtain ⟨pre', hpre'⟩ := ih (old.length - 1) hlen
        refine ⟨new ++ pre', ?_⟩
        have hb : old.isPrefixOf (c :: (pre ++ (blk ++ post))) = true := by
          rw [List.isPrefixOf_iff_prefix]; exact hp
        simp only [List.cons_append, List.append_assoc] at hb hpre' ⊢
        simp only [replaceGo, hb, if_true, hpre']
      · obtain ⟨pre', hpre'⟩ := ih 0 (Nat.zero_le _)
        refine ⟨c :: pre', ?_⟩
        rw [List.cons_append, replaceGo_no_match _ _ _ _ hp, hpre']
        rfl

theorem Replace_eq_replaceGo (s old new : Str) (hne : old ≠ []) :
    Replace s old new = replaceGo old new 0 s := by
  cases old with
  | nil => exact absurd rfl hne
  | cons o os => simp [Replace]

/-- A block that occurs in `s`, begins and ends with characters foreign to `old` and
holds no occurrence of `old`, still occurs after `old` is replaced. -/
theorem Replace_keeps_block (s old new blk : Str) (b0 b1 : Char) (tl init : Str)
    (hne : old ≠ []) (hb0 : blk = b0 :: tl) (hb1 : blk = init ++ [b1])
    (h0 : b0 ∉ old) (h1 : b1 ∉ old) (h2 : ¬ old <:+: blk) (hs : blk <:+: s) :
    blk <:+: Replace s old new := by
  obtain ⟨pre, post, rfl⟩ := hs
  obtain ⟨pre', hpre'⟩ := replaceGo_keeps_block old new blk b0 b1 tl init post hb0 hb1 h0 h1 h2
    pre 0 (Nat.zero_le _)
  rw [Replace_eq_replaceGo _ _ _ hne, List.append_assoc, hpre']
  exact ⟨pre', replaceGo old new 0 post, by simp⟩

/-- An occurrence of `old` that stands between two characters foreign to `old` is
replaced by `new`. -/
theorem Replace_at_slot (s old new : Str) (b0 b1 : Char)
    (hne : old ≠ []) (h0 : b0 ∉ old) (h1 : b1 ∉ old)
    (hs : b0 :: (old ++ [b1]) <:+: s) :
    b0 :: (new ++ [b1]) <:+: Replace s old new := by
  obtain ⟨pre, post, rfl⟩ := hs
  have h2 : ¬ old <:+: [b0] := by
    intro h
    cases old with
    | nil => exact hne rfl
    | cons o os =>
      have : o ∈ [b0] := h.subset (by simp)
      simp only [List.mem_singleton] at this
      exact h0 (by simp [this])
  obtain ⟨pre', hpre'⟩ := replaceGo_keeps_block old new [b0] b0 b0 [] [] (old ++ b1 :: post)
    rfl rfl h0 h0 h2 pre 0 (Nat.zero_le _)
  have e : pre ++ b0 :: (old ++ [b1]) ++ post = pre ++ ([b0] ++ (old ++ b1 :: post)) := by simp
  have hnp : ¬ old <+: b1 :: post := by
    intro hp
    cases old with
    | nil => exact hne rfl
    | cons o os => simp only [List.cons_prefix_cons] at hp; exact h1 (by simp [hp.1])
  rw [Replace_eq_replaceGo _ _ _ hne, e, hpre', replaceGo_at_match _ _ _ hne,
    replaceGo_no_match _ _ _ _ hnp]
  exact ⟨pre', replaceGo old new 0 post, by simp⟩

/-- An occurrence of `old` inside `a ++ f ++ b` lies inside `f`, when the first
character of `old` occurs in neither `a` nor `b` and `b` begins with a character
foreign to `old`. -/
theorem infix_of_infix_sandwich (o : Char) (os a f b : Str) (b0 : Char) (tl : Str)
    (ha : o ∉ a) (hb : o ∉ b) (hb0 : b = b0 :: tl) (hb0' : b0 ∉ o :: os)
    (h : o :: os <:+: a ++ (f ++ b)) : o :: os <:+: f := by
  induction a with
  | nil =>
    simp only [List.nil_append] at h
    clear ha
    induction f with
    | nil => exact absurd (h.subset (List.mem_cons_self _ _)) hb
    | cons c f ih =>
      rcases List.infix_cons_iff.mp h with hp | hi
      · rcases Nat.lt_or_ge (c :: f).length (o :: os).length with hl | hl
        · exfalso
          have hx : (c :: f) ++ [b0] <+: c :: (f ++ b) := ⟨tl, by simp [hb0]⟩
          have hl' : ((c :: f) ++ [b0]).length ≤ (o :: os).length := by
            simp only [List.length_append, List.length_cons, List.length_nil] at hl ⊢
            omega
          exact hb0' ((List.prefix_of_prefix_length_le hx hp hl').subset (by simp))
        · exact (List.prefix_of_prefix_length_le hp (List.prefix_append _ _) hl).isInfix
      · exact List.infix_cons (ih hi)
  | cons x a ih =>
    rcases List.infix_cons_iff.mp h with hp | hi
    · exfalso
      simp only [List.cons_append, List.cons_prefix_cons] at hp
      exact ha (by simp [hp.1])
    · exact ih (fun hm => ha (List.mem_cons_of_mem _ hm)) hi

/-! ## Lemmas on `filepath.Match` with the pattern `*.log` -/

theorem matchChunk_dotlog (goos : GOOS) (s : Str) :
    ∃ t ok, matchChunk goos ['.', 'l', 'o', 'g'] s = some (t, ok) ∧
      (ok = true → s = ['.', 'l', 'o', 'g'] ++ t) := by
  rcases s with _ | ⟨a, _ | ⟨b, _ | ⟨c, _ | ⟨d, t⟩⟩⟩⟩ <;>
    simp [matchChunk, matchChunkLoop]
  split_ifs <;> simp_all

theorem matchChunk_dotlog_self (goos : GOOS) :
    matchChunk goos ['.', 'l', 'o', 'g'] ['.', 'l', 'o', 'g'] = some ([], true) := by
  simp [matchChunk, matchChunkLoop]

theorem starLoop_cons (goos : GOOS) (chunk : Str) (last : Bool) (c : Char) (name : Str) :
    starLoop goos chunk last (c :: name) =
      if c = Separator goos then none
      else
        match matchChunk goos chunk name with
        | none => none
        | some (t, ok) =>
          if ok then
            if last && !t.isEmpty then starLoop goos chunk last name else some t
          else starLoop goos chunk last name := rfl

/-- Behind a star, the last chunk `.log` is found at the end of every name that ends in
`.log` after a non-empty part free of separators. -/
theorem starLoop_dotlog_found (goos : GOOS) : ∀ n : Str, n ≠ [] → Separator goos ∉ n →
    starLoop goos ['.', 'l', 'o', 'g'] true (n ++ ['.', 'l', 'o', 'g']) = some [] := by
  intro n
  induction n with
  | nil => intro h; exact absurd rfl h
  | cons c n ih =>
    intro _ hsep
    have hc : c ≠ Separator goos := fun h => hsep (by simp [h])
    have hn : Separator goos ∉ n := fun h => hsep (List.mem_cons_of_mem _ h)
    cases n with
    | nil => simp [starLoop, hc, matchChunk_dotlog_self]
    | cons d n =>
      obtain ⟨t, ok, hm, -⟩ := matchChunk_dotlog goos ((d :: n) ++ ['.', 'l', 'o', 'g'])
      have ih' := ih (by simp) hn
      rw [List.cons_append, starLoop_cons, if_neg hc, hm]
      cases ok with
      | false => simpa using ih'
      | true =>
        cases t with
        | nil => simp
        | cons x t => simpa using ih'

/-- Behind a star, the last chunk `.log` is only found at the very end of the name. -/
theorem starLoop_dotlog_sound (goos : GOOS) : ∀ (name t : Str),
    starLoop goos ['.', 'l', 'o', 'g'] true name = some t →
      ['.', 'l', 'o', 'g'] <:+ name := by
  intro name
  induction name with
  | nil => intro t h; simp [starLoop] at h
  | cons c name ih =>
    intro t h
    obtain ⟨t1, ok, hm, hok⟩ := matchChunk_dotlog goos name
    rw [starLoop_cons, hm] at h
    by_cases hc : c = Separator goos
    · simp [hc] at h
    · simp only [hc, if_false] at h
      cases ok with
      | false =>
        simp only [Bool.false_eq_true, if_false] at h
        exact (ih t h).trans (List.suffix_cons c name)
      | true =>
        cases t1 with
        | nil =>
          have := hok rfl
          rw [this]; simp
        | cons x t1 =>
          simp only [if_true, List.isEmpty_cons, Bool.not_false, Bool.and_self] at h
          exact (ih t h).trans (List.suffix_cons c name)

theorem Match_starlog_true (goos : GOOS) (n : Str) (h0 : n ≠ []) (hsep : Separator goos ∉ n) :
    Match goos ['*', '.', 'l', 'o', 'g'] (n ++ ['.', 'l', 'o', 'g']) = true := by
  obtain ⟨t, ok, hm, -⟩ := matchChunk_dotlog goos (n ++ ['.', 'l', 'o', 'g'])
  have hs := starLoop_dotlog_found goos n h0 hsep
  simp only [Match, matchLoop, scanChunk, scanBody, List.length_cons, List.length_nil]
  simp [hm, hs, matchLoop]
  cases ok <;> cases t <;> simp [matchLoop]

theorem not_dotlog_suffix_exe (n : Str) : ¬ ['.', 'l', 'o', 'g'] <:+ n ++ ['.', 'e', 'x', 'e'] := by
  intro h
  rw [← List.reverse_prefix] at h
  simp at h

theorem Match_starlog_exe (goos : GOOS) (n : Str) :
    Match goos ['*', '.', 'l', 'o', 'g'] (n ++ ['.', 'e', 'x', 'e']) = false := by
  obtain ⟨t, ok, hm, hok⟩ := matchChunk_dotlog goos (n ++ ['.', 'e', 'x', 'e'])
  simp only [Match, matchLoop, scanChunk, scanBody, List.length_cons, List.length_nil]
  simp [hm]
  have hstar : starLoop goos ['.', 'l', 'o', 'g'] true (n ++ ['.', 'e', 'x', 'e']) = none := by
    cases hs : starLoop goos ['.', 'l', 'o', 'g'] true (n ++ ['.', 'e', 'x', 'e']) with
    | none => rfl
    | some t1 => exact absurd (starLoop_dotlog_sound goos _ t1 hs) (not_dotlog_suffix_exe n)
  cases ok with
  | false => simp [hstar]
  | true =>
    have := hok rfl
    cases t with
    | nil =>
      exfalso
      apply not_dotlog_suffix_exe n
      rw [this]; simp
    | cons x t => simp [hstar]

/-! ## Lemmas on the version file -/

theorem component_concat (lines : List Str) (l : Str) (k : Key) :
    component (lines ++ [l]) k = if keyOf l = some k then valueOf k l else component lines k := by
  unfold component
  by_cases h : keyOf l = some k
  · simp [List.filter_append, h]
  · simp [List.filter_append, h]

/-- The line loop leaves in each variable the value of the last line assigning it. -/
theorem foldl_scanLine (lines : List Str) :
    lines.foldl scanLine ⟨[], [], [], [], []⟩ =
      ⟨component lines Key.major, component lines Key.minor, component lines Key.patch,
        component lines Key.build, component lines Key.ref⟩ := by
  induction lines using List.reverseRecOn with
  | nil => simp [component]
  | append_singleton lines l ih =>
    rw [List.foldl_append, ih]
    simp only [List.foldl_cons, List.foldl_nil, component_concat]
    simp only [scanLine, keyOf, valueOf]
    generalize Contains l "=".toList = c1
    generalize Contains l ";".toList = c2
    generalize Contains l "major".toList = c3
    generalize Contains l "minor".toList = c4
    generalize Contains l "patch".toList = c5
    generalize Contains l "build".toList = c6
    generalize Contains l "ref".toList = c7
    cases c1 <;> cases c2 <;> cases c3 <;> cases c4 <;> cases c5 <;> cases c6 <;> cases c7 <;> simp

example : formatVersion ((Split "major = 1;\nminor = 2;\nbuild = 5;".toList '\n').foldl scanLine ⟨[], [], [], [], []⟩) = "1.2..5.".toList := by decide

/-! ## Lemmas on the script -/

theorem placeholder_shape (tok : Str) (h : tok ∈ Placeholders) :
    ∃ os, tok = '$' :: os ∧ '\n' ∉ tok ∧ '"' ∉ tok := by
  simp only [Placeholders, List.mem_cons, List.mem_singleton, List.not_mem_nil, or_false] at h
  rcases h with rfl | rfl | rfl | rfl | rfl | rfl <;> exact ⟨_, rfl, by decide, by decide⟩

/-- A line `a ++ f ++ "` whose fixed part `a` has no dollar sign and whose field `f`
holds no occurrence of the placeholder survives the replacement of that placeholder. -/
theorem define_line_kept (s tok new a f : Str) (htok : tok ∈ Placeholders)
    (ha : '$' ∉ a) (hf : ¬ tok <:+: f) (hs : hasLine s (a ++ (f ++ ['"']))) :
    hasLine (Replace s tok new) (a ++ (f ++ ['"'])) := by
  obtain ⟨os, rfl, hn, hq⟩ := placeholder_shape tok htok
  unfold hasLine at hs ⊢
  refine Replace_keeps_block s ('$' :: os) new _ '\n' '\n' (a ++ (f ++ ['"']) ++ ['\n'])
    ('\n' :: (a ++ (f ++ ['"']))) (by simp) rfl (by simp) hn hn ?_ hs
  intro hi
  apply hf
  have e : '\n' :: (a ++ (f ++ ['"']) ++ ['\n']) = ('\n' :: a) ++ (f ++ ['"', '\n']) := by simp
  rw [e] at hi
  refine infix_of_infix_sandwich '$' os ('\n' :: a) f ['"', '\n'] '"' ['\n'] ?_ (by decide) rfl hq hi
  simp only [List.mem_cons, not_or]
  exact ⟨by decide, ha⟩

theorem profileBase_eq (config : Config) (app : App) :
    profileBase config app =
      Replace (Replace (Replace (Replace (profileDefines config app) "$APPID$".toList app.Id)
        "$SETUP_TARGET$".toList app.SetupTarget)
        "$PROGRAM_FILES$".toList (Join (programs app) "\n".toList))
        "$EXTERN_FILES$".toList (Join (externs app) "\n".toList) := rfl

theorem profile_eq (config : Config) (app : App) :
    profile config app =
      if app.VcRedist.length > 0 then
        Replace (Replace (profileBase config app) "$RUN$".toList runDirective)
          "$CODE$".toList (vcCode app)
      else Replace (Replace (profileBase config app) "$RUN$".toList []) "$CODE$".toList [] := rfl

/-- A define line present after the `$DEFINES$` substitution is a line of the script,
when its field holds none of the placeholders replaced later. -/
theorem profile_keeps_define (config : Config) (app : App) (a f : Str) (ha : '$' ∉ a)
    (hf : NoPlaceholder f) (hs : hasLine (profileDefines config app) (a ++ (f ++ ['"']))) :
    hasLine (profile config app) (a ++ (f ++ ['"'])) := by
  have h1 := define_line_kept _ "$APPID$".toList app.Id a f (by simp [Placeholders]) ha
    (hf _ (by simp [Placeholders])) hs
  have h2 := define_line_kept _ "$SETUP_TARGET$".toList app.SetupTarget a f
    (by simp [Placeholders]) ha (hf _ (by simp [Placeholders])) h1
  have h3 := define_line_kept _ "$PROGRAM_FILES$".toList (Join (programs app) "\n".toList) a f
    (by simp [Placeholders]) ha (hf _ (by simp [Placeholders])) h2
  have h4 := define_line_kept _ "$EXTERN_FILES$".toList (Join (externs app) "\n".toList) a f
    (by simp [Placeholders]) ha (hf _ (by simp [Placeholders])) h3
  rw [← profileBase_eq] at h4
  rw [profile_eq]
  split
  · exact define_line_kept _ "$CODE$".toList _ a f (by simp [Placeholders]) ha
      (hf _ (by simp [Placeholders]))
      (define_line_kept _ "$RUN$".toList _ a f (by simp [Placeholders]) ha
        (hf _ (by simp [Placeholders])) h4)
  · exact define_line_kept _ "$CODE$".toList _ a f (by simp [Placeholders]) ha
      (hf _ (by simp [Placeholders]))
      (define_line_kept _ "$RUN$".toList _ a f (by simp [Placeholders]) ha
        (hf _ (by simp [Placeholders])) h4)

set_option maxRecDepth 100000 in
theorem template_defines_slot :
    Contains innoProfileTemplate ('\n' :: ("$DEFINES$".toList ++ ['\n'])) = true := by decide!

/-- The `$DEFINES$` substitution puts the joined defines between two line breaks. -/
theorem profileDefines_block (config : Config) (app : App) :
    '\n' :: (Join (defines config app) "\n".toList ++ ['\n']) <:+: profileDefines config app :=
  Replace_at_slot innoProfileTemplate "$DEFINES$".toList _ '\n' '\n' (by decide) (by decide)
    (by decide) ((Contains_iff _ _).mp template_defines_slot)

theorem Join_cons_cons (l l2 : Str) (ls : List Str) (sep : Str) :
    Join (l :: l2 :: ls) sep = l ++ (sep ++ Join (l2 :: ls) sep) := by
  simp [Join, List.intercalate]

/-- Each element of a list joined by line breaks is a line of the joined text. -/
theorem line_in_Join (lines : List Str) (line : Str) (h : line ∈ lines) :
    '\n' :: (line ++ ['\n']) <:+: '\n' :: (Join lines ['\n'] ++ ['\n']) := by
  induction lines with
  | nil => simp at h
  | cons l ls ih =>
    cases ls with
    | nil =>
      simp only [List.mem_singleton] at h
      subst h
      simp [Join, List.intercalate]
    | cons l2 ls =>
      rw [Join_cons_cons]
      rcases List.mem_cons.mp h with rfl | h'
      · exact ⟨[], Join (l2 :: ls) ['\n'] ++ ['\n'], by simp⟩
      · obtain ⟨p, q, hpq⟩ := ih h'
        exact ⟨'\n' :: (l ++ p), q, by simp [← hpq]⟩

/-- Every define is a line of the text after the `$DEFINES$` substitution. -/
theorem profileDefines_hasLine (config : Config) (app : App) (line : Str)
    (h : line ∈ defines config app) : hasLine (profileDefines config app) line :=
  List.IsInfix.trans (line_in_Join _ line h) (profileDefines_block config app)

/-- A block of whole lines, `\n … \n`, survives the replacement of a placeholder that
holds no line break and does not occur in the block. -/
theorem Replace_keeps_lines (s old new mid : Str) (hne : old ≠ []) (hn : '\n' ∉ old)
    (h2 : Contains ('\n' :: (mid ++ ['\n'])) old = false)
    (hs : '\n' :: (mid ++ ['\n']) <:+: s) :
    '\n' :: (mid ++ ['\n']) <:+: Replace s old new := by
  refine Replace_keeps_block s old new _ '\n' '\n' (mid ++ ['\n']) ('\n' :: mid) hne rfl
    (by simp) hn hn ?_ hs
  rw [← Contains_iff, h2]
  simp

set_option maxRecDepth 100000 in
theorem template_run_slot :
    Contains innoProfileTemplate ('\n' :: ("$RUN$".toList ++ ['\n'])) = true := by decide!

set_option maxRecDepth 100000 in
theorem template_code_slot :
    Contains innoProfileTemplate ('\n' :: ("$CODE$".toList ++ ['\n'])) = true := by decide!

/-- A slot `\n$X$\n` of the template, for `$X$` one of `$RUN$` and `$CODE$`, is still
there after the five substitutions every script gets. -/
theorem late_slot_kept (config : Config) (app : App) (slot : Str)
    (hslot : slot = "$RUN$".toList ∨ slot = "$CODE$".toList) :
    '\n' :: (slot ++ ['\n']) <:+: profileBase config app := by
  have h0 : '\n' :: (slot ++ ['\n']) <:+: innoProfileTemplate := by
    rcases hslot with rfl | rfl
    · exact (Contains_iff _ _).mp template_run_slot
    · exact (Contains_iff _ _).mp template_code_slot
  have hk : ∀ (s old new : Str), old ∈ ["$DEFINES$".toList, "$APPID$".toList,
      "$SETUP_TARGET$".toList, "$PROGRAM_FILES$".toList, "$EXTERN_FILES$".toList] →
      '\n' :: (slot ++ ['\n']) <:+: s → '\n' :: (slot ++ ['\n']) <:+: Replace s old new := by
    intro s old new hold hs
    simp only [List.mem_cons, List.mem_singleton, List.not_mem_nil, or_false] at hold
    rcases hslot with rfl | rfl <;> rcases hold with rfl | rfl | rfl | rfl | rfl <;>
      exact Replace_keeps_lines s _ new _ (by decide) (by decide) (by decide) hs
  rw [profileBase_eq]
  exact hk _ _ _ (by simp) (hk _ _ _ (by simp) (hk _ _ _ (by simp) (hk _ _ _ (by simp)
    (hk _ _ _ (by simp) h0))))

set_option maxRecDepth 100000 in
theorem codeBlock_no_key : ¬ Contains codeBlock "$VCREGKEY$".toList = true := by decide!

set_option maxRecDepth 100000 in
theorem runDirective_no_code :
    Contains ('\n' :: (runDirective ++ ['\n'])) "$CODE$".toList = false := by decide!

/-- The replacement of `$VCREGKEY$` finds nothing to replace: the code text spells its
placeholder `$(VCREGKEY)$`. -/
theorem vcCode_eq (app : App) : vcCode app = codeBlock := by
  unfold vcCode
  rw [Replace_eq_replaceGo _ _ _ (by decide)]
  apply replaceGo_no_occurrence
  rw [← Contains_iff]
  exact codeBlock_no_key

/-- With a non-empty `VcRedist` the script holds the run directive and the code text,
each as written in the source. -/
theorem profile_runtime_block (config : Config) (app : App) (h : app.VcRedist ≠ []) :
    hasLine (profile config app) runDirective ∧ hasLine (profile config app) codeBlock := by
  have hlen : app.VcRedist.length > 0 := List.length_pos.mpr h
  rw [profile_eq, if_pos hlen, vcCode_eq]
  constructor
  · have h1 := Replace_at_slot _ "$RUN$".toList runDirective '\n' '\n' (by decide) (by decide)
      (by decide) (late_slot_kept config app _ (Or.inl rfl))
    exact Replace_keeps_lines _ "$CODE$".toList codeBlock runDirective (by decide) (by decide)
      runDirective_no_code h1
  · have h1 := Replace_keeps_lines _ "$RUN$".toList runDirective "$CODE$".toList (by decide)
      (by decide) (by decide) (late_slot_kept config app _ (Or.inr rfl))
    exact Replace_at_slot _ "$CODE$".toList codeBlock '\n' '\n' (by decide) (by decide)
      (by decide) h1

/-! ## Lemmas on `filepath.Match`: fuel and separators -/

theorem getEsc_length (goos : GOOS) (chunk : Str) (r : Char) (rest : Str)
    (h : getEsc goos chunk = some (r, rest)) : rest.length < chunk.length := by
  unfold getEsc at h
  split at h
  · simp at h
  · rename_i c tl
    split_ifs at h with h1 h2 h3
    · split at h
      · simp at h
      · rename_i x nchunk
        split_ifs at h
        simp only [Option.some.injEq, Prod.mk.injEq] at h
        obtain ⟨-, rfl⟩ := h
        simp only [List.length_cons]
        omega
    · simp only [Option.some.injEq, Prod.mk.injEq] at h
      obtain ⟨-, rfl⟩ := h
      simp

theorem matchClass_succ (goos : GOOS) (r : Char) (fuel nrange : Nat) (m : Bool) (chunk : Str) :
    matchClass goos r (fuel + 1) nrange m chunk =
      match chunk with
      | ']' :: rest => if nrange > 0 then some (m, rest) else none
      | _ =>
        match getEsc goos chunk with
        | none => none
        | some (lo, '-' :: chunk2) =>
          match getEsc goos chunk2 with
          | none => none
          | some (hi, chunk3) =>
            matchClass goos r fuel (nrange + 1) (m || (decide (lo ≤ r) && decide (r ≤ hi))) chunk3
        | some (lo, chunk1) =>
          matchClass goos r fuel (nrange + 1) (m || (decide (lo ≤ r) && decide (r ≤ lo))) chunk1 := by
  rfl

/-- The class loop ends before its fuel does: any two supplies above the length of
the chunk give the same result. -/
theorem matchClass_fuel (goos : GOOS) (r : Char) : ∀ (f1 f2 nrange : Nat) (m : Bool) (chunk : Str),
    chunk.length < f1 → chunk.length < f2 →
      matchClass goos r f1 nrange m chunk = matchClass goos r f2 nrange m chunk := by
  intro f1
  induction f1 with
  | zero => intro f2 nrange m chunk h; omega
  | succ f1 ih =>
    intro f2 nrange m chunk h1 h2
    cases f2 with
    | zero => omega
    | succ f2 =>
      rw [matchClass_succ, matchClass_succ]
      split
      · rfl
      · split
        · rfl
        · rename_i lo chunk2 hg
          have hl := getEsc_length goos _ _ _ hg
          simp only [List.length_cons] at hl
          split
          · rfl
          · rename_i hi chunk3 hg3
            have hl3 := getEsc_length goos _ _ _ hg3
            exact ih _ _ _ _ (by omega) (by omega)
        · rename_i lo chunk1 _ hg
          have hl := getEsc_length goos _ _ _ hg
          exact ih _ _ _ _ (by omega) (by omega)

/-- The class loop consumes at least one character of the chunk. -/
theorem matchClass_length (goos : GOOS) (r : Char) : ∀ (fuel nrange : Nat) (m b : Bool)
    (chunk rest : Str), matchClass goos r fuel nrange m chunk = some (b, rest) →
      rest.length < chunk.length := by
  intro fuel
  induction fuel with
  | zero => intro nrange m b chunk rest h; simp [matchClass] at h
  | succ fuel ih =>
    intro nrange m b chunk rest h
    rw [matchClass_succ] at h
    split at h
    · split_ifs at h
      simp only [Option.some.injEq, Prod.mk.injEq] at h
      obtain ⟨-, rfl⟩ := h
      simp
    · split at h
      · simp at h
      · rename_i lo chunk2 hg
        have hl := getEsc_length goos _ _ _ hg
        simp only [List.length_cons] at hl
        split at h
        · simp at h
        · rename_i hi chunk3 hg3
          have hl3 := getEsc_length goos _ _ _ hg3
          have := ih _ _ _ _ _ h
          omega
      · rename_i lo chunk1 _ hg
        have hl := getEsc_length goos _ _ _ hg
        have := ih _ _ _ _ _ h
        omega

theorem matchChunkLoop_succ (goos : GOOS) (fuel : Nat) (c : Char) (chunk s : Str) (failed0 : Bool) :
    matchChunkLoop goos (fuel + 1) (c :: chunk) s failed0 =
      (let failed := failed0 || s.isEmpty
      if c = '[' then
        let r := if failed then Char.ofNat 0 else s.headD (Char.ofNat 0)
        let s1 := if failed then s else s.tail
        let negated := decide (chunk.head? = some '^')
        let chunk1 := if negated then chunk.tail else chunk
        match matchClass goos r (chunk1.length + 1) 0 false chunk1 with
        | none => none
        | some (m, chunk2) => matchChunkLoop goos fuel chunk2 s1 (failed || (m == negated))
      else if c = '?' then
        if failed then matchChunkLoop goos fuel chunk s true
        else matchChunkLoop goos fuel chunk s.tail (decide (s.head? = some (Separator goos)))
      else if c = '\\' ∧ goos ≠ GOOS.windows then
        match chunk with
        | [] => none
        | d :: chunk1 =>
          if failed then matchChunkLoop goos fuel chunk1 s true
          else matchChunkLoop goos fuel chunk1 s.tail (decide (s.head? ≠ some d))
      else
        if failed then matchChunkLoop goos fuel chunk s true
        else matchChunkLoop goos fuel chunk s.tail (decide (s.head? ≠ some c))) := by
  rfl

/-- The chunk loop ends before its fuel does. -/
theorem matchChunkLoop_fuel (goos : GOOS) : ∀ (f1 f2 : Nat) (chunk s : Str) (failed : Bool),
    chunk.length ≤ f1 → chunk.length ≤ f2 →
      matchChunkLoop goos f1 chunk s failed = matchChunkLoop goos f2 chunk s failed := by
  intro f1
  induction f1 with
  | zero =>
    intro f2 chunk s failed h1 _
    have : chunk = [] := List.length_eq_zero.mp (Nat.le_zero.mp h1)
    subst this
    cases f2 <;> simp [matchChunkLoop]
  | succ f1 ih =>
    intro f2 chunk s failed h1 h2
    cases chunk with
    | nil => cases f2 <;> simp [matchChunkLoop]
    | cons c chunk =>
      cases f2 with
      | zero => simp at h2
      | succ f2 =>
        simp only [List.length_cons, Nat.add_le_add_iff_right] at h1 h2
        rw [matchChunkLoop_succ, matchChunkLoop_succ]
        simp only []
        split_ifs with hc1 hf hc2 hf2 hc3 hf3
        all_goals first
          | exact ih _ _ _ _ h1 h2
          | (split
             · rfl
             · first
               | (rename_i hm
                  have hl := matchClass_length goos _ _ _ _ _ _ _ hm
                  have ht : chunk.tail.length ≤ chunk.length := by simp
                  exact ih _ _ _ _ (by omega) (by omega))
               | (simp only [List.length_cons] at h1 h2
                  exact ih _ _ _ _ (by omega) (by omega)))

/-- The fuel `matchChunk` supplies is enough. -/
theorem matchChunk_fuel (goos : GOOS) (chunk s : Str) (fuel : Nat) (h : chunk.length ≤ fuel) :
    matchChunkLoop goos fuel chunk s false = matchChunk goos chunk s :=
  matchChunkLoop_fuel goos fuel chunk.length chunk s false h (Nat.le_refl _)

/-- Claim C2: for a readable version-definition file named by a version ending in `.h`,
`createVersionConfig` sets the version to `major.minor.patch.build.ref`, each component
the value of the last line assigning its key and empty when no line does; the two files
of the claim give `1.2.3.4.abcd` and `1.2..5.`. -/
theorem createVersionConfig_header (pf : Platform) (env : Env) (config : Config) (app : App)
    (txt : Str) (hh : HasSuffix config.Version ".h".toList = true)
    (hr : env.readFile config.Version = some txt) :
    (createVersionConfig pf env config app).1.Version =
        component (Split txt '\n') Key.major ++ ".".toList ++
        component (Split txt '\n') Key.minor ++ ".".toList ++
        component (Split txt '\n') Key.patch ++ ".".toList ++
        component (Split txt '\n') Key.build ++ ".".toList ++
        component (Split txt '\n') Key.ref ∧
    (txt = "major = 1;\nminor = 2;\npatch = 3;\nbuild = \"4\";\nref = \"abcd\";".toList →
      (createVersionConfig pf env config app).1.Version = "1.2.3.4.abcd".toList) ∧
    (txt = "major = 1;\nminor = 2;\nbuild = 5;".toList →
      (createVersionConfig pf env config app).1.Version = "1.2..5.".toList) := by
  have e : (createVersionConfig pf env config app).1.Version =
      formatVersion ((Split txt '\n').foldl scanLine ⟨[], [], [], [], []⟩) := by
    unfold createVersionConfig
    simp only [hh, hr, if_true]
  refine ⟨?_, ?_, ?_⟩
  · rw [e, foldl_scanLine]; rfl
  · intro h; rw [e, h]; decide
  · intro h; rw [e, h]; decide

/-- The witness of `createVersionConfig_header`: the header file of the claim, read
through `version.h`. -/
theorem createVersionConfig_header_witness :
    HasSuffix exConfigHeader.Version ".h".toList = true ∧
    exEnv.readFile exConfigHeader.Version = some exHeader ∧
    (createVersionConfig exPlatform exEnv exConfigHeader exApp).1.Version =
      "1.2.3.4.abcd".toList :=
  ⟨by decide, rfl,
    (createVersionConfig_header exPlatform exEnv exConfigHeader exApp exHeader (by decide)
      rfl).2.1 rfl⟩

set_option maxRecDepth 100000 in
theorem codeBlock_fn_need :
    Contains ('\n' :: (codeBlock ++ ['\n'])) "function NeedInstallVCRuntime(): Boolean;".toList
      = true := by decide!

set_option maxRecDepth 100000 in
theorem codeBlock_fn_init :
    Contains ('\n' :: (codeBlock ++ ['\n'])) "function InitializeSetup(): Boolean;".toList
      = true := by decide!

set_option maxRecDepth 100000 in
theorem codeBlock_query :
    Contains ('\n' :: (codeBlock ++ ['\n']))
      ("RegQueryDWordValue(HKLM, 'SOFTWARE\\Microsoft\\Windows\\CurrentVersion\\Uninstall\\"
        ++ "$(VCREGKEY)$'").toList = true := by decide!

set_option maxRecDepth 100000 in
theorem codeBlock_key_text :
    Contains ('\n' :: (codeBlock ++ ['\n'])) "$(VCREGKEY)$".toList = true := by decide!

set_option maxRecDepth 1000000 in
theorem exProfile_no_key :
    ¬ Contains (profile exConfig exApp) "Uninstall\\VC-KEY".toList = true := by decide!

/-- Claim C3, as the code behaves: `copyNewFiles` clears `VcRedist` in its own copy of
the application only, so when `vcredist_x64.exe` is absent the script `main` generates
for an application with a non-empty `vcredist` key still holds the run directive with
`Check:NeedInstallVCRuntime` and the code block with `NeedInstallVCRuntime` and
`InitializeSetup`. -/
theorem stageApp_vcredist_absent (pf : Platform) (env : Env) (ignores : List Str)
    (config : Config) (app : App) (hk : app.VcRedist ≠ [])
    (habs : env.stat "vcredist_x64.exe".toList = false) :
    (copyNewFiles pf env ignores app).2.VcRedist = [] ∧
    hasLine (stageApp pf env ignores config app).script runDirective ∧
    hasLine (stageApp pf env ignores config app).script codeBlock ∧
    "Check:NeedInstallVCRuntime".toList <:+: (stageApp pf env ignores config app).script ∧
    "function NeedInstallVCRuntime(): Boolean;".toList <:+:
      (stageApp pf env ignores config app).script ∧
    "function InitializeSetup(): Boolean;".toList <:+:
      (stageApp pf env ignores config app).script := by
  have hlen : app.VcRedist.length > 0 := List.length_pos.mpr hk
  obtain ⟨h1, h2⟩ := profile_runtime_block (createVersionConfig pf env config app).1 app hk
  have hrun : "Check:NeedInstallVCRuntime".toList <:+: '\n' :: (runDirective ++ ['\n']) := by
    rw [← Contains_iff]; decide
  have hc1 : "function NeedInstallVCRuntime(): Boolean;".toList <:+:
      '\n' :: (codeBlock ++ ['\n']) := by
    rw [← Contains_iff]; exact codeBlock_fn_need
  have hc2 : "function InitializeSetup(): Boolean;".toList <:+:
      '\n' :: (codeBlock ++ ['\n']) := by
    rw [← Contains_iff]; exact codeBlock_fn_init
  refine ⟨?_, h1, h2, hrun.trans h1, hc1.trans h2, hc2.trans h2⟩
  simp only [copyNewFiles, hlen, habs, if_true]
  rfl

/-- The witness of `stageApp_vcredist_absent`: the example application, staged where
`vcredist_x64.exe` is absent. -/
theorem stageApp_vcredist_absent_witness :
    exApp.VcRedist ≠ [] ∧ exEnv.stat "vcredist_x64.exe".toList = false ∧
    hasLine (stageApp exPlatform exEnv [] exConfig exApp).script runDirective ∧
    hasLine (stageApp exPlatform exEnv [] exConfig exApp).script codeBlock :=
  ⟨by decide, rfl,
    (stageApp_vcredist_absent exPlatform exEnv [] exConfig exApp (by decide) rfl).2.1,
    (stageApp_vcredist_absent exPlatform exEnv [] exConfig exApp (by decide) rfl).2.2.1⟩

/-- Claim C7, as the code behaves: the code text spells its placeholder `$(VCREGKEY)$`
while `$VCREGKEY$` is what gets replaced, so for every non-empty `vcredist` key the
script still queries `…\Uninstall\$(VCREGKEY)$`: the key is not interpolated and the
placeholder text remains. -/
theorem profile_vcregkey_remains (config : Config) (app : App) (hk : app.VcRedist ≠ []) :
    vcCode app = codeBlock ∧
    ("RegQueryDWordValue(HKLM, 'SOFTWARE\\Microsoft\\Windows\\CurrentVersion\\Uninstall\\"
      ++ "$(VCREGKEY)$'").toList <:+: profile config app ∧
    "$(VCREGKEY)$".toList <:+: profile config app := by
  obtain ⟨-, h2⟩ := profile_runtime_block config app hk
  have hc1 : ("RegQueryDWordValue(HKLM, 'SOFTWARE\\Microsoft\\Windows\\CurrentVersion\\Uninstall\\"
      ++ "$(VCREGKEY)$'").toList <:+: '\n' :: (codeBlock ++ ['\n']) := by
    rw [← Contains_iff]; exact codeBlock_query
  have hc2 : "$(VCREGKEY)$".toList <:+: '\n' :: (codeBlock ++ ['\n']) := by
    rw [← Contains_iff]; exact codeBlock_key_text
  exact ⟨vcCode_eq app, hc1.trans h2, hc2.trans h2⟩

/-- The witness of `profile_vcregkey_remains`: with the key `VC-KEY` the script holds
the placeholder text and nowhere the registry path followed by the key. -/
theorem profile_vcregkey_remains_witness :
    exApp.VcRedist = "VC-KEY".toList ∧
    "$(VCREGKEY)$".toList <:+: profile exConfig exApp ∧
    ¬ "Uninstall\\VC-KEY".toList <:+: profile exConfig exApp :=
  ⟨rfl, (profile_vcregkey_remains exConfig exApp (by decide)).2.2,
    fun h => exProfile_no_key ((Contains_iff _ _).mpr h)⟩

theorem not_mem_define_head (a : Str) (h : Contains a ['$'] = false) : '$' ∉ a := by
  intro hm
  have : ['$'] <:+: a := by
    obtain ⟨s, t, rfl⟩ := List.append_of_mem hm
    exact ⟨s, t, by simp⟩
  rw [← Contains_iff, h] at this
  exact Bool.false_ne_true this

/-- A define built from a fixed head without a dollar sign and a field without
placeholder is a line of the script. -/
theorem profile_define_line (config : Config) (app : App) (a f : Str)
    (ha : Contains a ['$'] = false) (hf : NoPlaceholder f)
    (hm : a ++ f ++ "\"".toList ∈ defines config app) :
    hasLine (profile config app) (a ++ f ++ "\"".toList) := by
  have h := profileDefines_hasLine config app _ hm
  rw [List.append_assoc] at h ⊢
  exact profile_keeps_define config app a f (not_mem_define_head a ha) hf h

set_option maxRecDepth 1000000 in
theorem exProfile_placeholder_gone :
    ¬ Contains (profile exConfigPlaceholder exApp)
      "#define AppPublisher \"$APPID$\"".toList = true := by decide!

set_option maxRecDepth 1000000 in
theorem exProfile_placeholder_id :
    Contains (profile exConfigPlaceholder exApp)
      ('\n' :: ("#define AppPublisher \"APP-1\"".toList ++ ['\n'])) = true := by decide!

/-- The counterexample to C8: with the publisher `$APPID$` the script does not hold the
publisher verbatim; the later `$APPID$` substitution has turned the define into
`#define AppPublisher "APP-1"`. -/
theorem profile_publisher_counterexample :
    exConfigPlaceholder.Publisher = "$APPID$".toList ∧
    ¬ "#define AppPublisher \"$APPID$\"".toList <:+: profile exConfigPlaceholder exApp ∧
    hasLine (profile exConfigPlaceholder exApp) "#define AppPublisher \"APP-1\"".toList :=
  ⟨rfl, fun h => exProfile_placeholder_gone ((Contains_iff _ _).mpr h),
    (Contains_iff _ _).mp exProfile_placeholder_id⟩

/-- Claim C8, amended: each of the six defines is a line of the script, carrying its
string verbatim, whenever that string holds none of the placeholders `$APPID$`,
`$SETUP_TARGET$`, `$PROGRAM_FILES$`, `$EXTERN_FILES$`, `$RUN$`, `$CODE$` that are replaced
after the defines are put in. -/
theorem profile_defines_verbatim (config : Config) (app : App) :
    (NoPlaceholder app.Name →
      hasLine (profile config app) ("#define AppName \"".toList ++ app.Name ++ "\"".toList)) ∧
    (NoPlaceholder config.Version →
      hasLine (profile config app)
        ("#define AppVersion \"".toList ++ config.Version ++ "\"".toList)) ∧
    (NoPlaceholder config.Publisher →
      hasLine (profile config app)
        ("#define AppPublisher \"".toList ++ config.Publisher ++ "\"".toList)) ∧
    (NoPlaceholder config.Url →
      hasLine (profile config app) ("#define AppURL \"".toList ++ config.Url ++ "\"".toList)) ∧
    (NoPlaceholder app.ExeName →
      hasLine (profile config app)
        ("#define AppExeName \"".toList ++ app.ExeName ++ "\"".toList)) ∧
    (NoPlaceholder app.WorkPath →
      hasLine (profile config app)
        ("#define AppSourceDir \"".toList ++ app.WorkPath ++ "\"".toList)) := by
  refine ⟨fun h => ?_, fun h => ?_, fun h => ?_, fun h => ?_, fun h => ?_, fun h => ?_⟩ <;>
    exact profile_define_line config app _ _ (by decide) h (by simp [defines])

set_option maxRecDepth 100000 in
theorem exConfig_no_placeholder :
    NoPlaceholder exApp.Name ∧ NoPlaceholder exConfig.Version ∧
    NoPlaceholder exConfig.Publisher ∧ NoPlaceholder exConfig.Url ∧
    NoPlaceholder exApp.ExeName ∧ NoPlaceholder exApp.WorkPath := by
  simp only [NoPlaceholder, Placeholders, List.forall_mem_cons, List.not_mem_nil,
    IsEmpty.forall_iff, implies_true, and_true, ← Contains_iff]
  decide

/-- The witness of `profile_defines_verbatim`: the example configuration, whose strings
hold no placeholder. -/
theorem profile_defines_verbatim_witness :
    NoPlaceholder exConfig.Publisher ∧ NoPlaceholder exConfig.Url ∧
    hasLine (profile exConfig exApp) "#define AppPublisher \"Atom Ltd\"".toList ∧
    hasLine (profile exConfig exApp) "#define AppURL \"http://atom.example\"".toList :=
  ⟨exConfig_no_placeholder.2.2.1, exConfig_no_placeholder.2.2.2.1,
    (profile_defines_verbatim exConfig exApp).2.2.1 exConfig_no_placeholder.2.2.1,
    (profile_defines_verbatim exConfig exApp).2.2.2.1 exConfig_no_placeholder.2.2.2.1⟩

set_option maxRecDepth 1000000 in
theorem exScript_version_gone :
    ¬ Contains (stageApp exPlatform exEnv [] exConfigVersion exApp).script
      "#define AppVersion \"$APPID$\"".toList = true := by decide!

set_option maxRecDepth 1000000 in
theorem exScript_version_id :
    Contains (stageApp exPlatform exEnv [] exConfigVersion exApp).script
      ('\n' :: ("#define AppVersion \"APP-1\"".toList ++ ['\n'])) = true := by decide!

/-- The counterexample to C9: the version `$APPID$` does not end in `.h`, yet the script
generated afterwards does not define AppVersion as that text; the later `$APPID$`
substitution has turned the define into `#define AppVersion "APP-1"`. -/
theorem createVersionConfig_literal_counterexample :
    HasSuffix exConfigVersion.Version ".h".toList = false ∧
    ¬ "#define AppVersion \"$APPID$\"".toList <:+:
      (stageApp exPlatform exEnv [] exConfigVersion exApp).script ∧
    hasLine (stageApp exPlatform exEnv [] exConfigVersion exApp).script
      "#define AppVersion \"APP-1\"".toList :=
  ⟨by decide, fun h => exScript_version_gone ((Contains_iff _ _).mpr h),
    (Contains_iff _ _).mp exScript_version_id⟩

/-- Claim C9, amended: for a configured version `v` that does not end in `.h`,
`createVersionConfig` leaves the configuration as it is and issues one operation, the
write of `v` to the file `version` joined to the application's work path, so it reads no
file; the AppVersion define `generateInnoProfile` then builds is `#define AppVersion "v"`,
it is a line of the text once the defines are put in, and it is a line of the generated
script whenever `v` holds none of the placeholders replaced afterwards. -/
theorem createVersionConfig_literal (pf : Platform) (env : Env) (ignores : List Str)
    (config : Config) (app : App) (h : HasSuffix config.Version ".h".toList = false) :
    createVersionConfig pf env config app =
      (config, [Op.writeFile (pf.Join app.WorkPath "version".toList) config.Version]) ∧
    (∀ path, Op.readFile path ∉ (createVersionConfig pf env config app).2) ∧
    (stageApp pf env ignores config app).config = config ∧
    (defines (stageApp pf env ignores config app).config app)[1]? =
      some ("#define AppVersion \"".toList ++ config.Version ++ "\"".toList) ∧
    hasLine (profileDefines (stageApp pf env ignores config app).config app)
      ("#define AppVersion \"".toList ++ config.Version ++ "\"".toList) ∧
    (NoPlaceholder config.Version →
      hasLine (stageApp pf env ignores config app).script
        ("#define AppVersion \"".toList ++ config.Version ++ "\"".toList)) := by
  have e : createVersionConfig pf env config app =
      (config, [Op.writeFile (pf.Join app.WorkPath "version".toList) config.Version]) := by
    unfold createVersionConfig
    simp only [h, Bool.false_eq_true, if_false]
  have ec : (stageApp pf env ignores config app).config = config := by
    simp only [stageApp, e]
  have es : (stageApp pf env ignores config app).script = profile config app := by
    simp only [stageApp, e]
  refine ⟨e, ?_, ec, ?_, ?_, ?_⟩
  · intro path
    rw [e]
    simp
  · rw [ec]; rfl
  · rw [ec]
    exact profileDefines_hasLine config app _ (by simp [defines])
  · intro hv
    rw [es]
    exact profile_define_line config app _ _ (by decide) hv (by simp [defines])

/-- The witness of `createVersionConfig_literal`: the example configuration, whose
version is `2.0.0`. -/
theorem createVersionConfig_literal_witness :
    HasSuffix exConfig.Version ".h".toList = false ∧ NoPlaceholder exConfig.Version ∧
    createVersionConfig exPlatform exEnv exConfig exApp =
      (exConfig, [Op.writeFile "C:/out/Atom\\version".toList "2.0.0".toList]) ∧
    hasLine (stageApp exPlatform exEnv [] exConfig exApp).script
      "#define AppVersion \"2.0.0\"".toList :=
  ⟨by decide, exConfig_no_placeholder.2.1,
    (createVersionConfig_literal exPlatform exEnv [] exConfig exApp (by decide)).1,
    (createVersionConfig_literal exPlatform exEnv [] exConfig exApp (by decide)).2.2.2.2.2
      exConfig_no_placeholder.2.1⟩

theorem head?_dropWhile_false (p : Char → Bool) (l : Str) (c : Char)
    (h : (l.dropWhile p).head? = some c) : p c = false := by
  have := List.head?_dropWhile_not p l
  rw [h] at this
  exact this

/-- The result of `strings.Trim` does not begin with a character of the cutset. -/
theorem Trim_head (s cutset : Str) (c : Char) (h : (Trim s cutset).head? = some c) :
    c ∉ cutset := by
  unfold Trim at h
  rw [List.head?_reverse] at h
  obtain ⟨pre, hpre⟩ := List.dropWhile_suffix (fun c => cutset.contains c)
    (l := (s.dropWhile (fun c => cutset.contains c)).reverse)
  have h2 : ((s.dropWhile (fun c => cutset.contains c)).reverse).getLast? = some c := by
    rw [← hpre, List.getLast?_append, h]
    rfl
  rw [List.getLast?_reverse] at h2
  have := head?_dropWhile_false _ _ _ h2
  simpa using this

/-- The result of `strings.Trim` does not end with a character of the cutset. -/
theorem Trim_last (s cutset : Str) (c : Char) (h : (Trim s cutset).getLast? = some c) :
    c ∉ cutset := by
  unfold Trim at h
  rw [List.getLast?_reverse] at h
  have := head?_dropWhile_false _ _ _ h
  simpa using this

theorem replaceGo_removes (c : Char) : ∀ (s : Str) (k : Nat), c ∉ replaceGo [c] [] k s := by
  intro s
  induction s with
  | nil => intro k; cases k <;> simp [replaceGo]
  | cons x s ih =>
    intro k
    cases k with
    | succ k => simpa [replaceGo] using ih k
    | zero =>
      by_cases hx : x = c
      · subst hx
        simpa [replaceGo] using ih 0
      · have hx' : ¬ c = x := fun h => hx h.symm
        simp only [replaceGo, List.isPrefixOf, List.length_singleton, Nat.sub_self]
        simp [hx, hx', ih 0]

/-- After `strings.Replace(s, c, "", -1)` the character `c` is gone. -/
theorem Replace_removes (s : Str) (c : Char) : c ∉ Replace s [c] [] := by
  rw [Replace_eq_replaceGo _ _ _ (by simp)]
  exact replaceGo_removes c s 0

theorem scanLine_field (v : VersionFields) (l : Str) (k : Key) (hk : keyOf l = some k) :
    fieldOf k (scanLine v l) = valueOf k l := by
  revert hk
  simp only [scanLine, keyOf, valueOf]
  generalize Contains l "=".toList = c1
  generalize Contains l ";".toList = c2
  generalize Contains l "major".toList = c3
  generalize Contains l "minor".toList = c4
  generalize Contains l "patch".toList = c5
  generalize Contains l "build".toList = c6
  generalize Contains l "ref".toList = c7
  cases c1 <;> cases c2 <;> cases c3 <;> cases c4 <;> cases c5 <;> cases c6 <;> cases c7 <;>
    cases k <;> simp [fieldOf]

/-- The counterexample to C10: the line `major =` tab `1;` assigns a value that begins
with the tab, and the line `build = " 4 ";` a value that begins and ends with a space. -/
theorem scanLine_trim_counterexample :
    keyOf "major =\t1;".toList = some Key.major ∧
    (scanLine ⟨[], [], [], [], []⟩ "major =\t1;".toList).major = "\t1".toList ∧
    keyOf "build = \" 4 \";".toList = some Key.build ∧
    (scanLine ⟨[], [], [], [], []⟩ "build = \" 4 \";".toList).build = " 4 ".toList := by
  decide

/-- Claim C10, amended: the value a line assigns to its key is trimmed of space
characters only.  For `major`, `minor` and `patch` it neither begins nor ends with a
space; for `build` and `ref` it is that trimmed text with every double quote removed, so
it holds no double quote. -/
theorem scanLine_value (v : VersionFields) (l : Str) (k : Key) (hk : keyOf l = some k) :
    (lineToken l).head? ≠ some ' ' ∧ (lineToken l).getLast? ≠ some ' ' ∧
    ((k = Key.major ∨ k = Key.minor ∨ k = Key.patch) →
      fieldOf k (scanLine v l) = lineToken l ∧
      (fieldOf k (scanLine v l)).head? ≠ some ' ' ∧
      (fieldOf k (scanLine v l)).getLast? ≠ some ' ') ∧
    ((k = Key.build ∨ k = Key.ref) →
      fieldOf k (scanLine v l) = Replace (lineToken l) ['"'] [] ∧
      '"' ∉ fieldOf k (scanLine v l)) := by
  have h1 : (lineToken l).head? ≠ some ' ' := fun h => Trim_head _ _ _ h (by simp)
  have h2 : (lineToken l).getLast? ≠ some ' ' := fun h => Trim_last _ _ _ h (by simp)
  have hf := scanLine_field v l k hk
  refine ⟨h1, h2, ?_, ?_⟩
  · intro hc
    have e : fieldOf k (scanLine v l) = lineToken l := by
      rw [hf]; rcases hc with rfl | rfl | rfl <;> rfl
    rw [e]
    exact ⟨rfl, h1, h2⟩
  · intro hc
    have e : fieldOf k (scanLine v l) = Replace (lineToken l) ['"'] [] := by
      rw [hf]; rcases hc with rfl | rfl <;> rfl
    rw [e]
    exact ⟨rfl, Replace_removes _ _⟩

/-- The witness of `scanLine_value`: the line `build = "4";`. -/
theorem scanLine_value_witness :
    keyOf "build = \"4\";".toList = some Key.build ∧
    '"' ∉ fieldOf Key.build (scanLine ⟨[], [], [], [], []⟩ "build = \"4\";".toList) :=
  ⟨by decide,
    ((scanLine_value ⟨[], [], [], [], []⟩ "build = \"4\";".toList Key.build (by decide)).2.2.2
      (Or.inl rfl)).2⟩

/-- Claim C4, as the code behaves: the relative path is the walked path with every
occurrence of the build path removed, not only the leading one.  For the build path `/a`
and the file `/a/x/a/y`, whose relative part is `/x/a/y`, `copyNewFiles` derives `/x/y`
and copies the file to the work path joined with `/x/y`. -/
theorem relativePath_nested (join : Str → Str → Str) :
    ToSlash GOOS.linux "/a/x/a/y".toList = nestedApp.BuildPath ++ "/x/a/y".toList ∧
    relativePath GOOS.linux nestedApp "/a/x/a/y".toList = "/x/y".toList ∧
    relativePath GOOS.linux nestedApp "/a/x/a/y".toList ≠ "/x/a/y".toList ∧
    walkFn ⟨GOOS.linux, join⟩ [] nestedApp ("/a/x/a/y".toList, false) =
      [Op.copyFile "/a/x/a/y".toList (join "/w".toList "/x/y".toList)] := by
  refine ⟨by decide, by decide, by decide, ?_⟩
  have hn : needIgnore GOOS.linux [] "/a/x/a/y".toList = false := by decide
  have hr : relativePath GOOS.linux nestedApp "/a/x/a/y".toList = "/x/y".toList := by decide
  simp only [walkFn, hn, hr, Bool.false_eq_true, if_false]
  rfl

theorem ToSlash_windows_append (a b : Str) :
    ToSlash GOOS.windows (a ++ b) = ToSlash GOOS.windows a ++ ToSlash GOOS.windows b := by
  simp [ToSlash, Separator]

theorem ToSlash_windows_no_sep (a : Str) :
    Separator GOOS.windows ∉ ToSlash GOOS.windows a := by
  simp only [ToSlash, Separator]
  intro h
  simp only [Char.reduceEq, if_false, List.mem_map] at h
  obtain ⟨c, -, hc⟩ := h
  split at hc <;> simp_all

theorem ToSlash_linux (a : Str) : ToSlash GOOS.linux a = a := by
  simp [ToSlash, Separator]

theorem not_starlog_suffix (n : Str) (x : Char) (hx : x ≠ '*') :
    ¬ ['*', '.', 'l', 'o', 'g'] <:+ n ++ [x, '.', 'l', 'o', 'g'] := by
  intro h
  rw [← List.reverse_prefix] at h
  simp at h
  exact hx h.symm

theorem not_starlog_suffix_exe (n : Str) :
    ¬ ['*', '.', 'l', 'o', 'g'] <:+ n ++ ['.', 'e', 'x', 'e'] := by
  intro h
  rw [← List.reverse_prefix] at h
  simp at h

/-- On Windows the pattern `*.log` ignores every walked `…\app.log` and no `…\app.exe`. -/
theorem needIgnore_windows_starlog (b : Str) :
    needIgnore GOOS.windows ["*.log".toList] (b ++ "\\app.log".toList) = true ∧
    needIgnore GOOS.windows ["*.log".toList] (b ++ "\\app.exe".toList) = false := by
  have e1 : ToSlash GOOS.windows (b ++ "\\app.log".toList) =
      (ToSlash GOOS.windows b ++ ['/', 'a', 'p', 'p']) ++ ['.', 'l', 'o', 'g'] := by
    rw [ToSlash_windows_append]
    have : ToSlash GOOS.windows "\\app.log".toList = ['/', 'a', 'p', 'p', '.', 'l', 'o', 'g'] := by
      decide
    rw [this]; simp
  have e2 : ToSlash GOOS.windows (b ++ "\\app.exe".toList) =
      (ToSlash GOOS.windows b ++ ['/', 'a', 'p', 'p']) ++ ['.', 'e', 'x', 'e'] := by
    rw [ToSlash_windows_append]
    have : ToSlash GOOS.windows "\\app.exe".toList = ['/', 'a', 'p', 'p', '.', 'e', 'x', 'e'] := by
      decide
    rw [this]; simp
  have hsep : Separator GOOS.windows ∉ ToSlash GOOS.windows b ++ ['/', 'a', 'p', 'p'] := by
    intro h
    rcases List.mem_append.mp h with h | h
    · exact ToSlash_windows_no_sep b h
    · revert h; decide
  constructor
  · have hm := Match_starlog_true GOOS.windows _ (by simp) hsep
    simp only [needIgnore, needIgnore.loop, e1]
    have : "*.log".toList = ['*', '.', 'l', 'o', 'g'] := rfl
    rw [this, hm]
    simp
  · have hm := Match_starlog_exe GOOS.windows (ToSlash GOOS.windows b ++ ['/', 'a', 'p', 'p'])
    have hs : HasSuffix ((ToSlash GOOS.windows b ++ ['/', 'a', 'p', 'p']) ++ ['.', 'e', 'x', 'e'])
        ['*', '.', 'l', 'o', 'g'] = false := by
      rw [← Bool.not_eq_true, HasSuffix_iff]
      exact not_starlog_suffix_exe _
    simp only [needIgnore, needIgnore.loop, e2]
    have : "*.log".toList = ['*', '.', 'l', 'o', 'g'] := rfl
    rw [this, hm, hs]
    simp

/-- Where the separator is the slash, the pattern `*.log` ignores no file under an
absolute path. -/
theorem Match_linux_starlog (b : Str) :
    Match GOOS.linux "*.log".toList ('/' :: b) = false := by
  have : "*.log".toList = ['*', '.', 'l', 'o', 'g'] := rfl
  rw [this]
  obtain ⟨t, ok, hm, hok⟩ := matchChunk_dotlog GOOS.linux ('/' :: b)
  simp only [Match, matchLoop, scanChunk, scanBody, List.length_cons, List.length_nil]
  cases ok with
  | true => simpa using hok rfl
  | false => simp [hm, starLoop, Separator]

/-- The counterexample to C5: where the separator is the slash, `needIgnore` with the
list `*.log` is false on the walked path `/b/app.log`, so `app.log` is copied too. -/
theorem needIgnore_starlog_counterexample :
    needIgnore GOOS.linux ["*.log".toList] "/b/app.log".toList = false := by
  decide

/-- Claim C5, amended: with the ignore list `*.log`, on Windows `needIgnore` is true on
every walked path `b\app.log` and false on `b\app.exe`, so of the two files only
`app.exe` is copied; where the separator is the slash and the build path is absolute,
`needIgnore` is false on both `b/app.log` and `b/app.exe`. -/
theorem needIgnore_starlog :
    (∀ b : Str,
      needIgnore GOOS.windows ["*.log".toList] (b ++ "\\app.log".toList) = true ∧
      needIgnore GOOS.windows ["*.log".toList] (b ++ "\\app.exe".toList) = false) ∧
    (∀ (join : Str → Str → Str) (app : App) (b : Str),
      walkFn ⟨GOOS.windows, join⟩ ["*.log".toList] app (b ++ "\\app.log".toList, false) = [] ∧
      walkFn ⟨GOOS.windows, join⟩ ["*.log".toList] app (b ++ "\\app.exe".toList, false) =
        [Op.copyFile (b ++ "\\app.exe".toList)
          (join app.WorkPath (relativePath GOOS.windows app (b ++ "\\app.exe".toList)))]) ∧
    (∀ b : Str,
      needIgnore GOOS.linux ["*.log".toList] ('/' :: b ++ "/app.log".toList) = false ∧
      needIgnore GOOS.linux ["*.log".toList] ('/' :: b ++ "/app.exe".toList) = false) := by
  refine ⟨needIgnore_windows_starlog, ?_, ?_⟩
  · intro join app b
    obtain ⟨h1, h2⟩ := needIgnore_windows_starlog b
    constructor
    · simp only [walkFn, h1, Bool.false_eq_true, if_false, if_true]
    · simp only [walkFn, h2, Bool.false_eq_true, if_false]
  · intro b
    have hm1 := Match_linux_starlog (b ++ "/app.log".toList)
    have hm2 := Match_linux_starlog (b ++ "/app.exe".toList)
    have hs1 : HasSuffix ('/' :: b ++ "/app.log".toList) "*.log".toList = false := by
      rw [← Bool.not_eq_true, HasSuffix_iff]
      have e : '/' :: b ++ "/app.log".toList =
          ('/' :: b ++ ['/', 'a', 'p']) ++ ['p', '.', 'l', 'o', 'g'] := by simp
      rw [e]
      exact not_starlog_suffix _ 'p' (by decide)
    have hs2 : HasSuffix ('/' :: b ++ "/app.exe".toList) "*.log".toList = false := by
      rw [← Bool.not_eq_true, HasSuffix_iff]
      have e : '/' :: b ++ "/app.exe".toList =
          ('/' :: b ++ ['/', 'a', 'p', 'p']) ++ ['.', 'e', 'x', 'e'] := by simp
      rw [e]
      exact not_starlog_suffix_exe _
    simp only [needIgnore, needIgnore.loop, ToSlash_linux, List.cons_append] at hm1 hm2 hs1 hs2 ⊢
    rw [hm1, hm2, hs1, hs2]
    simp

end VersionReleaser
